import Mathlib

/-
Verification of the statistics service in
`src/AspirePythonDemo/PythonApi/main.py`.

The numeric semantics is embedded over the exact rationals `ℚ`: Python
floats become rationals, `round(x, 2)` becomes round-half-to-even at two
decimal places, and `variance ** 0.5` followed by `round(_, 2)` becomes the
correctly rounded two-decimal square root (nearest multiple of `1/100` to
the exact square root, ties to even).
-/

namespace AspireStats

/-- `DataPoint` model (main.py lines 37-39): a float `value` and an
ISO-8601 `timestamp` string. -/
structure DataPoint where
  value : ℚ
  timestamp : String
deriving DecidableEq

/-- `AnalysisResult` model (main.py lines 41-47). -/
structure AnalysisResult where
  mean : ℚ
  median : ℚ
  std_dev : ℚ
  min : ℚ
  max : ℚ
  count : ℕ
deriving DecidableEq

/-- Round half to even to the nearest integer; embeds Python `round(_)`
restricted to exact rational inputs. -/
def rhe (x : ℚ) : ℤ :=
  if x - ⌊x⌋ < 1 / 2 then ⌊x⌋
  else if 1 / 2 < x - ⌊x⌋ then ⌊x⌋ + 1
  else if ⌊x⌋ % 2 = 0 then ⌊x⌋ else ⌊x⌋ + 1

/-- Python `round(x, 2)`: round half to even at two decimal places. -/
def round2 (x : ℚ) : ℚ := (rhe (100 * x) : ℚ) / 100

/-- Fuel-indexed upward scan: starting from candidate `k` with
`k * k ≤ n`, find the largest root candidate reachable with `f` steps.
Structurally recursive so that the kernel can evaluate it. -/
def isqrtUp (n : ℕ) : ℕ → ℕ → ℕ
  | 0, k => k
  | f + 1, k => if (k + 1) * (k + 1) ≤ n then isqrtUp n f (k + 1) else k

/-- Integer square root (largest `k` with `k * k ≤ n`). -/
def isqrt (n : ℕ) : ℕ := isqrtUp n n 0

/-- Floor of the square root of a nonnegative rational. -/
def sqrtFloorNat (t : ℚ) : ℕ := isqrt (t.num.toNat * t.den) / t.den

/-- Nearest integer to the real square root of `t`, ties to even. -/
def nearestSqrtInt (t : ℚ) : ℤ :=
  if ((2 * sqrtFloorNat t + 1 : ℕ) : ℚ) ^ 2 < 4 * t then (sqrtFloorNat t : ℤ) + 1
  else if 4 * t < ((2 * sqrtFloorNat t + 1 : ℕ) : ℚ) ^ 2 then (sqrtFloorNat t : ℤ)
  else if sqrtFloorNat t % 2 = 0 then (sqrtFloorNat t : ℤ) else (sqrtFloorNat t : ℤ) + 1

/-- Exact semantics of `round(q ** 0.5, 2)` for `0 ≤ q`: the multiple of
`1/100` nearest to the real square root of `q`, ties to even. -/
def roundSqrt2 (q : ℚ) : ℚ := (nearestSqrtInt (10000 * q) : ℚ) / 100

/-- Python `min(values)` on a nonempty list (0 as an unused default). -/
def pyMin : List ℚ → ℚ
  | [] => 0
  | x :: xs => xs.foldl min x

/-- Python `max(values)` on a nonempty list (0 as an unused default). -/
def pyMax : List ℚ → ℚ
  | [] => 0
  | x :: xs => xs.foldl max x

/-- Python `sorted(values)`: a fresh ascending-sorted copy (main.py 73). -/
def sortedCopy (values : List ℚ) : List ℚ := List.insertionSort (· ≤ ·) values

/-- Embedding of the body of `analyze_data` (main.py lines 61-94) on the
extracted value list. -/
def analyze (values : List ℚ) : AnalysisResult :=
  if values = [] then ⟨0, 0, 0, 0, 0, 0⟩
  else
    ⟨round2 (values.sum / (values.length : ℚ)),
     round2 (if values.length % 2 = 0 then
         ((sortedCopy values).getD (values.length / 2 - 1) 0
           + (sortedCopy values).getD (values.length / 2) 0) / 2
       else (sortedCopy values).getD (values.length / 2) 0),
     roundSqrt2 ((values.map (fun x => (x - values.sum / (values.length : ℚ)) ^ 2)).sum
       / (values.length : ℚ)),
     pyMin values, pyMax values, values.length⟩

/-- `analyze_data` itself (main.py line 65): it first projects each
`DataPoint` to its `value` and then analyzes the values. -/
def analyze_data (data : List DataPoint) : AnalysisResult :=
  analyze (data.map DataPoint.value)

/-- State-passing form of `analyze_data`: the second component is the
input list as it stands after the call.  `sorted(values)` (main.py 73)
allocates a new list, and no other step writes to `values`, so the input
is returned unchanged. -/
def analyzeTrackInput (values : List ℚ) : AnalysisResult × List ℚ :=
  (analyze values, values)

/-- Embedding of `generate_sample_data` (main.py lines 96-114).  The
ambient random source and clock are injected: `rand i` is the value
`random.uniform(10, 100)` drawn at step `i`, and `stamp i` is the
ISO-8601 rendering of `base_time - i` seconds. -/
def generate_sample_data (rand : ℕ → ℚ) (stamp : ℕ → String) (count : ℤ) :
    List DataPoint × ℕ :=
  ((List.range (if 1000 < count then (1000 : ℤ) else count).toNat).map
      (fun i => ⟨round2 (rand i), stamp i⟩),
   ((List.range (if 1000 < count then (1000 : ℤ) else count).toNat).map
      (fun i : ℕ => (⟨round2 (rand i), stamp i⟩ : DataPoint))).length)

/-- Modelled from the spec (§4.1 step 3): the arithmetic mean
`sum(values) / count`. -/
def meanSpec (values : List ℚ) : ℚ := values.sum / (values.length : ℚ)

/-- Modelled from the spec (§4.1 step 5): the median of the
ascending-sorted copy, averaging the two middle elements when the length
is even. -/
def medianSpec (values : List ℚ) : ℚ :=
  if values.length % 2 = 0 then
    ((sortedCopy values).getD (values.length / 2 - 1) 0
      + (sortedCopy values).getD (values.length / 2) 0) / 2
  else (sortedCopy values).getD (values.length / 2) 0

/-- Modelled from the spec (§4.1 step 6): the population variance
`sum((x - mean)^2 for x in values) / count`. -/
def variancePopSpec (values : List ℚ) : ℚ :=
  (values.map (fun x => (x - meanSpec values) ^ 2)).sum / (values.length : ℚ)

/-! ### Rounding lemmas -/

theorem rhe_abs_le (x : ℚ) : |(rhe x : ℚ) - x| ≤ 1 / 2 := by
  have h1 : (⌊x⌋ : ℚ) ≤ x := Int.floor_le x
  have h2 : x < ⌊x⌋ + 1 := Int.lt_floor_add_one x
  unfold rhe
  split
  · next h => rw [abs_le]; constructor <;> linarith
  · next h =>
    split
    · next h3 => rw [abs_le]; constructor <;> push_cast <;> linarith
    · next h3 =>
      split
      · next h4 => rw [abs_le]; constructor <;> linarith
      · next h4 => rw [abs_le]; push_cast; constructor <;> linarith

theorem round2_abs_le (x : ℚ) : |round2 x - x| ≤ 1 / 200 := by
  have h := rhe_abs_le (100 * x)
  rw [abs_le] at h ⊢
  unfold round2
  constructor <;> [linarith; linarith]

theorem round2_eq_int_div (x : ℚ) : ∃ m : ℤ, round2 x = (m : ℚ) / 100 :=
  ⟨rhe (100 * x), rfl⟩

theorem le_rhe_of_intCast_le {n : ℤ} {x : ℚ} (h : (n : ℚ) ≤ x) : n ≤ rhe x := by
  have h2 := rhe_abs_le x
  rw [abs_le] at h2
  have h3 : ((n : ℚ)) - 1 < ((rhe x : ℤ) : ℚ) := by linarith
  have h4 : n - 1 < rhe x := by exact_mod_cast h3
  omega

theorem rhe_le_of_le_intCast {n : ℤ} {x : ℚ} (h : x ≤ (n : ℚ)) : rhe x ≤ n := by
  have h2 := rhe_abs_le x
  rw [abs_le] at h2
  have h3 : ((rhe x : ℤ) : ℚ) < (n : ℚ) + 1 := by linarith
  have h4 : rhe x < n + 1 := by exact_mod_cast h3
  omega

theorem round2_mem_Icc {x : ℚ} (h1 : 10 ≤ x) (h2 : x ≤ 100) :
    10 ≤ round2 x ∧ round2 x ≤ 100 := by
  have ha : ((1000 : ℤ) : ℚ) ≤ 100 * x := by push_cast; linarith
  have hb : 100 * x ≤ ((10000 : ℤ) : ℚ) := by push_cast; linarith
  have h3 := le_rhe_of_intCast_le ha
  have h4 := rhe_le_of_le_intCast hb
  have h5 : (1000 : ℚ) ≤ ((rhe (100 * x) : ℤ) : ℚ) := by exact_mod_cast h3
  have h6 : ((rhe (100 * x) : ℤ) : ℚ) ≤ (10000 : ℚ) := by exact_mod_cast h4
  unfold round2
  constructor <;> linarith

/-! ### Integer square root lemmas -/

theorem isqrtUp_sq_le (n : ℕ) : ∀ f k, k * k ≤ n → isqrtUp n f k * isqrtUp n f k ≤ n := by
  intro f
  induction f with
  | zero => intro k h; simpa [isqrtUp] using h
  | succ f ih =>
    intro k h
    simp only [isqrtUp]
    split
    · next hc => exact ih (k + 1) hc
    · next hc => simpa using h

theorem lt_isqrtUp_succ (n : ℕ) :
    ∀ f k, n < (k + f + 1) * (k + f + 1) →
      n < (isqrtUp n f k + 1) * (isqrtUp n f k + 1) := by
  intro f
  induction f with
  | zero => intro k h; simpa [isqrtUp] using h
  | succ f ih =>
    intro k h
    simp only [isqrtUp]
    split
    · next hc =>
      exact ih (k + 1) (by rw [show k + 1 + f + 1 = k + (f + 1) + 1 by omega]; exact h)
    · next hc => exact Nat.lt_of_not_le hc

theorem isqrt_sq_le (n : ℕ) : isqrt n * isqrt n ≤ n :=
  isqrtUp_sq_le n n 0 (by simp)

theorem lt_isqrt_succ (n : ℕ) : n < (isqrt n + 1) * (isqrt n + 1) :=
  lt_isqrtUp_succ n n 0 (by nlinarith)

theorem sqrtFloorNat_bounds (t : ℚ) (ht : 0 ≤ t) :
    ((sqrtFloorNat t : ℚ)) ^ 2 ≤ t ∧ t < ((sqrtFloorNat t : ℚ) + 1) ^ 2 := by
  have hb : 0 < t.den := t.pos
  have hbq : (0 : ℚ) < (t.den : ℚ) := by exact_mod_cast hb
  have hnum : (0 : ℤ) ≤ t.num := Rat.num_nonneg.mpr ht
  have haq : ((t.num.toNat : ℤ)) = t.num := Int.toNat_of_nonneg hnum
  have hm : (t.num.toNat : ℚ) = ((t.num : ℤ) : ℚ) := by exact_mod_cast haq
  have ht_eq : t = (t.num.toNat : ℚ) / (t.den : ℚ) := by
    rw [hm, Rat.num_div_den]
  set k := sqrtFloorNat t with hk
  constructor
  · have h1 : k * t.den ≤ isqrt (t.num.toNat * t.den) :=
      Nat.div_mul_le_self _ _
    have h2 := isqrt_sq_le (t.num.toNat * t.den)
    have h3 : (k * t.den) * (k * t.den)
        ≤ t.num.toNat * t.den := le_trans (Nat.mul_le_mul h1 h1) h2
    have h4 : ((k : ℚ) * t.den) * ((k : ℚ) * t.den)
        ≤ (t.num.toNat : ℚ) * t.den := by exact_mod_cast h3
    rw [ht_eq, le_div_iff₀ hbq]
    nlinarith [h4, hbq]
  · have h5 : isqrt (t.num.toNat * t.den) < (k + 1) * t.den := by
      have h5a : isqrt (t.num.toNat * t.den) / t.den < k + 1 :=
        Nat.lt_succ_self _
      exact (Nat.div_lt_iff_lt_mul hb).mp h5a
    have h6 := lt_isqrt_succ (t.num.toNat * t.den)
    have h7 : isqrt (t.num.toNat * t.den) + 1 ≤ (k + 1) * t.den :=
      Nat.succ_le_of_lt h5
    have h8 : t.num.toNat * t.den
        < ((k + 1) * t.den) * ((k + 1) * t.den) :=
      lt_of_lt_of_le h6 (Nat.mul_le_mul h7 h7)
    have h9 : (t.num.toNat : ℚ) * t.den
        < (((k : ℚ) + 1) * t.den) * (((k : ℚ) + 1) * t.den) := by
      exact_mod_cast h8
    rw [ht_eq, div_lt_iff₀ hbq]
    nlinarith [h9, hbq]

theorem nearestSqrtInt_abs_le (t : ℚ) (ht : 0 ≤ t) :
    |((nearestSqrtInt t : ℤ) : ℝ) - Real.sqrt (t : ℝ)| ≤ 1 / 2 := by
  obtain ⟨hA, hB⟩ := sqrtFloorNat_bounds t ht
  have htR : (0 : ℝ) ≤ (t : ℝ) := by exact_mod_cast ht
  have hk1 : ((sqrtFloorNat t : ℝ)) ≤ Real.sqrt (t : ℝ) := by
    refine Real.le_sqrt_of_sq_le ?_
    exact_mod_cast hA
  have hk2 : Real.sqrt (t : ℝ) < (sqrtFloorNat t : ℝ) + 1 := by
    rw [Real.sqrt_lt htR (by positivity)]
    exact_mod_cast hB
  unfold nearestSqrtInt
  split
  · next hc =>
    have h' : (((2 * sqrtFloorNat t + 1 : ℕ) : ℝ)) ^ 2 < 4 * (t : ℝ) := by
      exact_mod_cast hc
    push_cast at h'
    have hc2 : ((sqrtFloorNat t : ℝ) + 1 / 2) ^ 2 < (t : ℝ) := by nlinarith [h']
    have hlt : (sqrtFloorNat t : ℝ) + 1 / 2 < Real.sqrt (t : ℝ) :=
      Real.lt_sqrt_of_sq_lt hc2
    rw [abs_le]
    push_cast
    constructor <;> linarith
  · next hc =>
    split
    · next hd =>
      have h' : 4 * (t : ℝ) < (((2 * sqrtFloorNat t + 1 : ℕ) : ℝ)) ^ 2 := by
        exact_mod_cast hd
      push_cast at h'
      have hd2 : (t : ℝ) < ((sqrtFloorNat t : ℝ) + 1 / 2) ^ 2 := by nlinarith [h']
      have hlt : Real.sqrt (t : ℝ) < (sqrtFloorNat t : ℝ) + 1 / 2 := by
        rw [Real.sqrt_lt htR (by positivity)]
        exact hd2
      rw [abs_le]
      push_cast
      constructor <;> linarith
    · next hd =>
      have heq : (((2 * sqrtFloorNat t + 1 : ℕ) : ℚ)) ^ 2 = 4 * t :=
        le_antisymm (not_lt.mp hd) (not_lt.mp hc)
      have h' : (((2 * sqrtFloorNat t + 1 : ℕ) : ℝ)) ^ 2 = 4 * (t : ℝ) := by
        exact_mod_cast heq
      push_cast at h'
      have he : (t : ℝ) = ((sqrtFloorNat t : ℝ) + 1 / 2) ^ 2 := by
        linear_combination (-1 / 4 : ℝ) * h'
      have hs : Real.sqrt (t : ℝ) = (sqrtFloorNat t : ℝ) + 1 / 2 := by
        rw [he, Real.sqrt_sq (by positivity)]
      split <;> (rw [abs_le]; push_cast; rw [hs]; constructor <;> linarith)

theorem roundSqrt2_abs_le (q : ℚ) (hq : 0 ≤ q) :
    |((roundSqrt2 q : ℚ) : ℝ) - Real.sqrt (q : ℝ)| ≤ 1 / 200 := by
  have ht : (0 : ℚ) ≤ 10000 * q := by positivity
  have h := nearestSqrtInt_abs_le (10000 * q) ht
  have e : Real.sqrt (((10000 * q : ℚ) : ℝ)) = 100 * Real.sqrt (q : ℝ) := by
    push_cast
    rw [Real.sqrt_mul (by norm_num : (0 : ℝ) ≤ 10000)]
    rw [show (10000 : ℝ) = 100 ^ 2 by norm_num, Real.sqrt_sq (by norm_num : (0 : ℝ) ≤ 100)]
  rw [abs_le] at h
  rw [e] at h
  unfold roundSqrt2
  rw [abs_le]
  push_cast
  constructor <;> linarith

/-! ### List minimum / maximum lemmas (Python `min` / `max`) -/

theorem foldl_min_le (l : List ℚ) : ∀ a : ℚ, l.foldl min a ≤ a ∧ ∀ y ∈ l, l.foldl min a ≤ y := by
  induction l with
  | nil => intro a; exact ⟨le_refl a, by simp⟩
  | cons x t ih =>
    intro a
    obtain ⟨h1, h2⟩ := ih (min a x)
    simp only [List.foldl_cons]
    refine ⟨le_trans h1 (min_le_left a x), ?_⟩
    intro y hy
    rcases List.mem_cons.mp hy with h | h
    · rw [h]
      exact le_trans h1 (min_le_right a x)
    · exact h2 y h

theorem foldl_min_mem (l : List ℚ) : ∀ a : ℚ, l.foldl min a ∈ a :: l := by
  induction l with
  | nil => intro a; simp
  | cons x t ih =>
    intro a
    simp only [List.foldl_cons]
    rcases List.mem_cons.mp (ih (min a x)) with h | h
    · rcases min_choice a x with hax | hax
      · rw [h, hax]
        exact List.mem_cons_self _ _
      · rw [h, hax]
        exact List.mem_cons_of_mem _ (List.mem_cons_self _ _)
    · exact List.mem_cons_of_mem _ (List.mem_cons_of_mem _ h)

theorem le_foldl_max (l : List ℚ) : ∀ a : ℚ, a ≤ l.foldl max a ∧ ∀ y ∈ l, y ≤ l.foldl max a := by
  induction l with
  | nil => intro a; exact ⟨le_refl a, by simp⟩
  | cons x t ih =>
    intro a
    obtain ⟨h1, h2⟩ := ih (max a x)
    simp only [List.foldl_cons]
    refine ⟨le_trans (le_max_left a x) h1, ?_⟩
    intro y hy
    rcases List.mem_cons.mp hy with h | h
    · rw [h]
      exact le_trans (le_max_right a x) h1
    · exact h2 y h

theorem foldl_max_mem (l : List ℚ) : ∀ a : ℚ, l.foldl max a ∈ a :: l := by
  induction l with
  | nil => intro a; simp
  | cons x t ih =>
    intro a
    simp only [List.foldl_cons]
    rcases List.mem_cons.mp (ih (max a x)) with h | h
    · rcases max_choice a x with hax | hax
      · rw [h, hax]
        exact List.mem_cons_self _ _
      · rw [h, hax]
        exact List.mem_cons_of_mem _ (List.mem_cons_self _ _)
    · exact List.mem_cons_of_mem _ (List.mem_cons_of_mem _ h)

theorem pyMin_mem {l : List ℚ} (h : l ≠ []) : pyMin l ∈ l := by
  cases l with
  | nil => exact absurd rfl h
  | cons x xs => simpa [pyMin] using foldl_min_mem xs x

theorem pyMin_le {l : List ℚ} (y : ℚ) (hy : y ∈ l) : pyMin l ≤ y := by
  cases l with
  | nil => simp at hy
  | cons x xs =>
    rcases List.mem_cons.mp hy with h | h
    · subst h
      simpa [pyMin] using (foldl_min_le xs y).1
    · simpa [pyMin] using (foldl_min_le xs x).2 y h

theorem pyMax_mem {l : List ℚ} (h : l ≠ []) : pyMax l ∈ l := by
  cases l with
  | nil => exact absurd rfl h
  | cons x xs => simpa [pyMax] using foldl_max_mem xs x

theorem le_pyMax {l : List ℚ} (y : ℚ) (hy : y ∈ l) : y ≤ pyMax l := by
  cases l with
  | nil => simp at hy
  | cons x xs =>
    rcases List.mem_cons.mp hy with h | h
    · subst h
      simpa [pyMax] using (le_foldl_max xs y).1
    · simpa [pyMax] using (le_foldl_max xs x).2 y h

theorem pyMin_congr_perm {l₁ l₂ : List ℚ} (h : l₁.Perm l₂) : pyMin l₁ = pyMin l₂ := by
  cases l₁ with
  | nil =>
    have : l₂ = [] := h.symm.eq_nil
    rw [this]
  | cons x xs =>
    have hne₁ : (x :: xs) ≠ ([] : List ℚ) := List.cons_ne_nil x xs
    have hne₂ : l₂ ≠ [] := by
      intro he
      subst he
      exact hne₁ h.eq_nil
    exact le_antisymm
      (pyMin_le _ (h.mem_iff.mpr (pyMin_mem hne₂)))
      (pyMin_le _ (h.mem_iff.mp (pyMin_mem hne₁)))

theorem pyMax_congr_perm {l₁ l₂ : List ℚ} (h : l₁.Perm l₂) : pyMax l₁ = pyMax l₂ := by
  cases l₁ with
  | nil =>
    have : l₂ = [] := h.symm.eq_nil
    rw [this]
  | cons x xs =>
    have hne₁ : (x :: xs) ≠ ([] : List ℚ) := List.cons_ne_nil x xs
    have hne₂ : l₂ ≠ [] := by
      intro he
      subst he
      exact hne₁ h.eq_nil
    exact le_antisymm
      (le_pyMax _ (h.mem_iff.mp (pyMax_mem hne₁)))
      (le_pyMax _ (h.mem_iff.mpr (pyMax_mem hne₂)))

/-! ### Sum, mean and median bounds -/

theorem mul_length_le_sum {l : List ℚ} {a : ℚ} (h : ∀ x ∈ l, a ≤ x) :
    a * l.length ≤ l.sum := by
  induction l with
  | nil => simp
  | cons x t ih =>
    simp only [List.sum_cons, List.length_cons]
    have hx := h x (List.mem_cons_self x t)
    have ht := ih (fun y hy => h y (List.mem_cons_of_mem x hy))
    push_cast
    ring_nf
    ring_nf at ht
    linarith

theorem sum_le_mul_length {l : List ℚ} {a : ℚ} (h : ∀ x ∈ l, x ≤ a) :
    l.sum ≤ a * l.length := by
  induction l with
  | nil => simp
  | cons x t ih =>
    simp only [List.sum_cons, List.length_cons]
    have hx := h x (List.mem_cons_self x t)
    have ht := ih (fun y hy => h y (List.mem_cons_of_mem x hy))
    push_cast
    ring_nf
    ring_nf at ht
    linarith

theorem meanSpec_bounds {l : List ℚ} (h : l ≠ []) :
    pyMin l ≤ meanSpec l ∧ meanSpec l ≤ pyMax l := by
  have hn : 0 < (l.length : ℚ) := by
    have := List.length_pos.mpr h
    exact_mod_cast this
  unfold meanSpec
  constructor
  · rw [le_div_iff₀ hn]
    exact mul_length_le_sum (fun x hx => pyMin_le x hx)
  · rw [div_le_iff₀ hn]
    exact sum_le_mul_length (fun x hx => le_pyMax x hx)

theorem getD_mem_of_lt {l : List ℚ} {i : ℕ} (h : i < l.length) : l.getD i 0 ∈ l := by
  rw [List.getD_eq_getElem?_getD, List.getElem?_eq_getElem h]
  simp

theorem sortedCopy_perm (l : List ℚ) : (sortedCopy l).Perm l :=
  List.perm_insertionSort (· ≤ ·) l

theorem sortedCopy_sorted (l : List ℚ) : List.Sorted (· ≤ ·) (sortedCopy l) :=
  List.sorted_insertionSort (· ≤ ·) l

theorem sortedCopy_length (l : List ℚ) : (sortedCopy l).length = l.length :=
  (sortedCopy_perm l).length_eq

theorem medianSpec_bounds {l : List ℚ} (h : l ≠ []) :
    pyMin l ≤ medianSpec l ∧ medianSpec l ≤ pyMax l := by
  have hpos : 0 < l.length := List.length_pos.mpr h
  have hmem : ∀ i, i < l.length → (sortedCopy l).getD i 0 ∈ l := by
    intro i hi
    have hi2 : i < (sortedCopy l).length := by rw [sortedCopy_length]; exact hi
    exact (sortedCopy_perm l).subset (getD_mem_of_lt hi2)
  unfold medianSpec
  split
  · next hev =>
    have hi1 : l.length / 2 - 1 < l.length :=
      lt_of_le_of_lt (Nat.sub_le _ _) (Nat.div_lt_self hpos one_lt_two)
    have hi2 : l.length / 2 < l.length := Nat.div_lt_self hpos one_lt_two
    have m1 := hmem _ hi1
    have m2 := hmem _ hi2
    constructor
    · have b1 := pyMin_le _ m1
      have b2 := pyMin_le _ m2
      linarith
    · have b1 := le_pyMax _ m1
      have b2 := le_pyMax _ m2
      linarith
  · next hev =>
    have hi2 : l.length / 2 < l.length := Nat.div_lt_self hpos one_lt_two
    exact ⟨pyMin_le _ (hmem _ hi2), le_pyMax _ (hmem _ hi2)⟩

/-! ### Unfolding lemma for `analyze` on nonempty input -/

theorem analyze_eq (values : List ℚ) (h : values ≠ []) :
    analyze values =
      ⟨round2 (meanSpec values), round2 (medianSpec values),
       roundSqrt2 (variancePopSpec values), pyMin values, pyMax values, values.length⟩ := by
  unfold analyze meanSpec medianSpec variancePopSpec
  rw [if_neg h]
  rfl

theorem variancePopSpec_nonneg (values : List ℚ) : 0 ≤ variancePopSpec values := by
  unfold variancePopSpec
  apply div_nonneg
  · apply List.sum_nonneg
    intro x hx
    simp only [List.mem_map] at hx
    obtain ⟨y, -, rfl⟩ := hx
    positivity
  · positivity

/-! ### Claims -/

/-- C1 (amended): for every non-empty input, the returned `mean` and
`median` lie between the returned `min` and `max` up to the two-decimal
rounding tolerance `1/200`; the claim as stated (with no tolerance) fails
because `mean` and `median` are rounded while `min`/`max` are not. -/
theorem analyze_mean_median_between_extremes_upto_rounding (vs : List ℚ) (h : vs ≠ []) :
    (analyze vs).min - 1 / 200 ≤ (analyze vs).mean ∧
    (analyze vs).mean ≤ (analyze vs).max + 1 / 200 ∧
    (analyze vs).min - 1 / 200 ≤ (analyze vs).median ∧
    (analyze vs).median ≤ (analyze vs).max + 1 / 200 := by
  rw [analyze_eq vs h]
  dsimp only
  obtain ⟨hm1, hm2⟩ := meanSpec_bounds h
  obtain ⟨hd1, hd2⟩ := medianSpec_bounds h
  have r1 := round2_abs_le (meanSpec vs)
  have r2 := round2_abs_le (medianSpec vs)
  rw [abs_le] at r1 r2
  exact ⟨by linarith [r1.1, r1.2], by linarith [r1.1, r1.2],
    by linarith [r2.1, r2.2], by linarith [r2.1, r2.2]⟩

/-- C1 witness: the amended bound instantiated at the list `[5]`. -/
theorem analyze_mean_median_between_extremes_upto_rounding_witness :
    (analyze [(5 : ℚ)]).min - 1 / 200 ≤ (analyze [(5 : ℚ)]).mean ∧
    (analyze [(5 : ℚ)]).mean ≤ (analyze [(5 : ℚ)]).max + 1 / 200 ∧
    (analyze [(5 : ℚ)]).min - 1 / 200 ≤ (analyze [(5 : ℚ)]).median ∧
    (analyze [(5 : ℚ)]).median ≤ (analyze [(5 : ℚ)]).max + 1 / 200 :=
  analyze_mean_median_between_extremes_upto_rounding [(5 : ℚ)] (by simp)

/-- C1 counterexample: on the input `[0.001]` the code rounds the mean
(and median) to `0.0` while `min = max = 0.001` is returned unrounded, so
`min ≤ mean` (and `min ≤ median`) fails on the returned record. -/
theorem analyze_min_le_mean_cex :
    ¬ ((analyze [(1 : ℚ) / 1000]).min ≤ (analyze [(1 : ℚ) / 1000]).mean ∧
       (analyze [(1 : ℚ) / 1000]).mean ≤ (analyze [(1 : ℚ) / 1000]).max ∧
       (analyze [(1 : ℚ) / 1000]).min ≤ (analyze [(1 : ℚ) / 1000]).median ∧
       (analyze [(1 : ℚ) / 1000]).median ≤ (analyze [(1 : ℚ) / 1000]).max) := by
  have hne : ([(1 : ℚ) / 1000] : List ℚ) ≠ [] := by simp
  rw [analyze_eq _ hne]
  intro hc
  obtain ⟨h1, -, -, -⟩ := hc
  dsimp only at h1
  have hm : meanSpec [(1 : ℚ) / 1000] = 1 / 1000 := by norm_num [meanSpec]
  have hr : round2 ((1 : ℚ) / 1000) = 0 := by
    unfold round2 rhe
    norm_num
  have hmin : pyMin [(1 : ℚ) / 1000] = 1 / 1000 := by norm_num [pyMin, List.foldl]
  rw [hm, hr, hmin] at h1
  norm_num at h1

/-- C2: on the empty input `analyze` returns the all-zero record (the
explicit empty-input branch, main.py lines 67-70); as a total Lean
function it cannot fail on any input. -/
theorem analyze_nil : analyze ([] : List ℚ) = ⟨0, 0, 0, 0, 0, 0⟩ := rfl

/-- C3: the median is computed from an ascending-sorted permutation of
the input, averaging the elements at zero-based indices `n/2 - 1` and
`n/2` when `n` is even and taking the element at index `n/2` when `n` is
odd (then rounded to two decimals like the other derived statistics). -/
theorem analyze_median_from_sorted_copy (vs : List ℚ) (h : vs ≠ []) :
    List.Sorted (· ≤ ·) (sortedCopy vs) ∧ (sortedCopy vs).Perm vs ∧
    (analyze vs).median = round2 (medianSpec vs) := by
  refine ⟨sortedCopy_sorted vs, sortedCopy_perm vs, ?_⟩
  rw [analyze_eq vs h]

/-- C3 witness: the median property instantiated at `[3, 1, 2]`. -/
theorem analyze_median_from_sorted_copy_witness :
    List.Sorted (· ≤ ·) (sortedCopy [(3 : ℚ), 1, 2]) ∧
    (sortedCopy [(3 : ℚ), 1, 2]).Perm [(3 : ℚ), 1, 2] ∧
    (analyze [(3 : ℚ), 1, 2]).median = round2 (medianSpec [(3 : ℚ), 1, 2]) :=
  analyze_median_from_sorted_copy [(3 : ℚ), 1, 2] (by simp)

/-- C4: the returned `std_dev` is the population variance's square root
rounded to two decimals: it equals the correctly rounded two-decimal
square root of `sum((x - mean)^2) / count`, hence lies within `1/200` of
the exact real square root of the population variance. -/
theorem analyze_std_dev_sqrt_pop_variance (vs : List ℚ) (h : vs ≠ []) :
    (analyze vs).std_dev = roundSqrt2 (variancePopSpec vs) ∧
    |(((analyze vs).std_dev : ℚ) : ℝ) - Real.sqrt ((variancePopSpec vs : ℚ) : ℝ)| ≤ 1 / 200 := by
  have he : (analyze vs).std_dev = roundSqrt2 (variancePopSpec vs) := by
    rw [analyze_eq vs h]
  exact ⟨he, by rw [he]; exact roundSqrt2_abs_le _ (variancePopSpec_nonneg vs)⟩

/-- C4 witness: the standard-deviation property instantiated at
`[1, 2, 3, 4]`. -/
theorem analyze_std_dev_sqrt_pop_variance_witness :
    (analyze [(1 : ℚ), 2, 3, 4]).std_dev = roundSqrt2 (variancePopSpec [(1 : ℚ), 2, 3, 4]) ∧
    |(((analyze [(1 : ℚ), 2, 3, 4]).std_dev : ℚ) : ℝ)
        - Real.sqrt ((variancePopSpec [(1 : ℚ), 2, 3, 4] : ℚ) : ℝ)| ≤ 1 / 200 :=
  analyze_std_dev_sqrt_pop_variance [(1 : ℚ), 2, 3, 4] (by simp)

/-- C5: `mean`, `median`, `std_dev` are two-decimal rounded values
(multiples of `1/100`, each within the half-to-even rounding tolerance
`1/200` of the exact value), while `min` and `max` are exact elements of
the input (its least and greatest elements, unrounded) and `count` is the
exact input length. -/
theorem analyze_rounding_and_exact_fields (vs : List ℚ) (h : vs ≠ []) :
    |(analyze vs).mean - meanSpec vs| ≤ 1 / 200 ∧
    |(analyze vs).median - medianSpec vs| ≤ 1 / 200 ∧
    (∃ m : ℤ, (analyze vs).mean = (m : ℚ) / 100) ∧
    (∃ m : ℤ, (analyze vs).median = (m : ℚ) / 100) ∧
    (∃ m : ℤ, (analyze vs).std_dev = (m : ℚ) / 100) ∧
    (analyze vs).min ∈ vs ∧ (∀ y ∈ vs, (analyze vs).min ≤ y) ∧
    (analyze vs).max ∈ vs ∧ (∀ y ∈ vs, y ≤ (analyze vs).max) ∧
    (analyze vs).count = vs.length := by
  rw [analyze_eq vs h]
  dsimp only
  exact ⟨round2_abs_le _, round2_abs_le _, round2_eq_int_div _, round2_eq_int_div _,
    ⟨nearestSqrtInt (10000 * variancePopSpec vs), rfl⟩,
    pyMin_mem h, fun y hy => pyMin_le y hy, pyMax_mem h, fun y hy => le_pyMax y hy, rfl⟩

/-- C5 witness: two binder-free consequences at the list `[1, 2]`. -/
theorem analyze_rounding_and_exact_fields_witness :
    |(analyze [(1 : ℚ), 2]).mean - meanSpec [(1 : ℚ), 2]| ≤ 1 / 200 ∧
    (analyze [(1 : ℚ), 2]).min ∈ ([(1 : ℚ), 2] : List ℚ) :=
  ⟨(analyze_rounding_and_exact_fields [(1 : ℚ), 2] (by simp)).1,
   (analyze_rounding_and_exact_fields [(1 : ℚ), 2] (by simp)).2.2.2.2.2.1⟩

/-- C6: `analyze` is invariant under permutation of its input: every
statistic is a symmetric function of the multiset of values (in the exact
rational semantics of the embedding). -/
theorem analyze_perm_invariant (vs ws : List ℚ) (h : vs.Perm ws) :
    analyze vs = analyze ws := by
  by_cases hn : vs = []
  · subst hn
    rw [h.symm.eq_nil]
  · have hw : ws ≠ [] := by
      intro he
      subst he
      exact hn h.eq_nil
    have hlen : vs.length = ws.length := h.length_eq
    have hsum : vs.sum = ws.sum := h.sum_eq
    have hsort : sortedCopy vs = sortedCopy ws :=
      List.eq_of_perm_of_sorted ((sortedCopy_perm vs).trans (h.trans (sortedCopy_perm ws).symm))
        (sortedCopy_sorted vs) (sortedCopy_sorted ws)
    have hmean : meanSpec vs = meanSpec ws := by
      unfold meanSpec
      rw [hsum, hlen]
    have hmed : medianSpec vs = medianSpec ws := by
      unfold medianSpec
      rw [hsort, hlen]
    have hvar : variancePopSpec vs = variancePopSpec ws := by
      unfold variancePopSpec
      have hmap : (vs.map (fun x => (x - meanSpec vs) ^ 2)).sum
          = (ws.map (fun x => (x - meanSpec ws) ^ 2)).sum := by
        rw [← hmean]
        exact (h.map _).sum_eq
      rw [hmap, hlen]
    have hmin : pyMin vs = pyMin ws := pyMin_congr_perm h
    have hmax : pyMax vs = pyMax ws := pyMax_congr_perm h
    rw [analyze_eq vs hn, analyze_eq ws hw, hmean, hmed, hvar, hmin, hmax, hlen]

/-- C6 witness: permutation invariance at `[1, 2]` against `[2, 1]`. -/
theorem analyze_perm_invariant_witness :
    analyze [(1 : ℚ), 2] = analyze [(2 : ℚ), 1] :=
  analyze_perm_invariant [(1 : ℚ), 2] [(2 : ℚ), 1] (List.Perm.swap 2 1 [])

/-- Fixed random source used by the C7 witness. -/
def constRand : ℕ → ℚ := fun _ => 55

/-- Fixed timestamp source used by the C7 witness. -/
def constStamp : ℕ → String := fun _ => "2024-01-01T00:00:00"

/-- C7: `generate_sample_data` clamps the count to 1000, returns the
empty sequence for nonpositive counts, and every produced value is the
two-decimal rounding of a uniform draw from `[10, 100]`, which stays in
`[10, 100]`. -/
theorem generate_sample_data_spec (rand : ℕ → ℚ) (stamp : ℕ → String) (count : ℤ)
    (hr : ∀ i, 10 ≤ rand i ∧ rand i ≤ 100) :
    (1000 < count → (generate_sample_data rand stamp count).1.length = 1000) ∧
    (count ≤ 0 → (generate_sample_data rand stamp count).1 = []) ∧
    ∀ p ∈ (generate_sample_data rand stamp count).1, 10 ≤ p.value ∧ p.value ≤ 100 := by
  refine ⟨?_, ?_, ?_⟩
  · intro hc
    simp [generate_sample_data, hc]
  · intro hc
    have hno : ¬ (1000 < count) := by omega
    simp only [generate_sample_data, if_neg hno]
    rw [Int.toNat_of_nonpos hc]
    simp
  · intro p hp
    simp only [generate_sample_data, List.mem_map, List.mem_range] at hp
    obtain ⟨i, -, rfl⟩ := hp
    have hi := hr i
    have hb := round2_mem_Icc hi.1 hi.2
    exact ⟨hb.1, hb.2⟩

/-- C7 witness: with a fixed in-range random source, a request for 2000
points is clamped to exactly 1000. -/
theorem generate_sample_data_spec_witness :
    (generate_sample_data constRand constStamp 2000).1.length = 1000 :=
  (generate_sample_data_spec constRand constStamp 2000
    (fun i => by constructor <;> norm_num [constRand])).1 (by norm_num)

/-- C8: the worked example: `analyze [1, 2, 3, 4]` returns mean `2.5`,
median `2.5`, population standard deviation `1.12` (sqrt of `1.25`
rounded to two decimals), min `1`, max `4`, count `4`. -/
theorem analyze_example_1234 :
    analyze [1, 2, 3, 4] = ⟨2.5, 2.5, 1.12, 1, 4, 4⟩ := by
  have hne : ([1, 2, 3, 4] : List ℚ) ≠ [] := by simp
  rw [analyze_eq _ hne]
  have hsort : sortedCopy [(1 : ℚ), 2, 3, 4] = [1, 2, 3, 4] := by
    simp [sortedCopy, List.insertionSort, List.orderedInsert]
  have hmean : meanSpec [(1 : ℚ), 2, 3, 4] = 5 / 2 := by
    norm_num [meanSpec]
  have hmed : medianSpec [(1 : ℚ), 2, 3, 4] = 5 / 2 := by
    norm_num [medianSpec, hsort]
  have hvar : variancePopSpec [(1 : ℚ), 2, 3, 4] = 5 / 4 := by
    norm_num [variancePopSpec, hmean]
  have hr : round2 (5 / 2 : ℚ) = 2.5 := by
    unfold round2 rhe
    norm_num
  have hsq : roundSqrt2 (5 / 4 : ℚ) = 1.12 := by
    have h125 : (10000 : ℚ) * (5 / 4) = 12500 := by norm_num
    have hisq : isqrt 12500 = 111 := by decide
    have htn : Int.toNat 12500 = 12500 := rfl
    unfold roundSqrt2
    rw [h125]
    unfold nearestSqrtInt sqrtFloorNat
    norm_num [htn, hisq]
  have hmin : pyMin [(1 : ℚ), 2, 3, 4] = 1 := by
    norm_num [pyMin, List.foldl, min_def]
  have hmax : pyMax [(1 : ℚ), 2, 3, 4] = 4 := by
    norm_num [pyMax, List.foldl, max_def]
  rw [hmean, hmed, hvar, hr, hsq, hmin, hmax]
  rfl

/-- C9: `analyze` does not mutate its input: in the state-passing
embedding the input list after the call is the input list before it, and
the result is the same as the pure function's. -/
theorem analyze_leaves_input_unchanged (vs : List ℚ) :
    (analyzeTrackInput vs).2 = vs ∧ (analyzeTrackInput vs).1 = analyze vs :=
  ⟨rfl, rfl⟩

/-- C10: the statistics depend only on the `value` projections: two
inputs with equal value sequences and arbitrary timestamps produce the
same record. -/
theorem analyze_data_depends_only_on_values (d₁ d₂ : List DataPoint)
    (h : d₁.map DataPoint.value = d₂.map DataPoint.value) :
    analyze_data d₁ = analyze_data d₂ := by
  unfold analyze_data
  rw [h]

/-- C10 witness: same value, different timestamps. -/
theorem analyze_data_depends_only_on_values_witness :
    analyze_data [⟨1, "2024-01-01T00:00:00"⟩] = analyze_data [⟨1, "1999-12-31T23:59:59"⟩] :=
  analyze_data_depends_only_on_values _ _ rfl

end AspireStats
